import Mathlib

/-!
Verification of a corpus-extraction toolkit: marker tokenizers (section-header,
verse-end, line-prefix dialects), unit assemblers, and a root/commentary pairing
aggregator. Documents are modelled as lists of characters; each extraction
script is embedded as a Lean function mirroring its Python control flow.
-/

set_option maxRecDepth 4000

/-! ## Python string primitives -/

/-- Characters treated as whitespace by Python str.strip / str.rstrip
(ASCII fragment). -/
def pyIsSpace (c : Char) : Bool :=
  c == ' ' || c == '\t' || c == '\n' || c == '\r' || c == '\x0b' || c == '\x0c'

/-- Decimal digit test, the character class of the marker patterns. -/
def isDigitCh (c : Char) : Bool :=
  '0' ≤ c && c ≤ '9'

/-- Boolean test that `p` is an initial segment of `l` (Python str.startswith). -/
def startsWithL : List Char → List Char → Bool
  | [], _ => true
  | _ :: _, [] => false
  | p :: ps, c :: cs => p == c && startsWithL ps cs

/-- Boolean test that `s` is a final segment of `l` (Python str.endswith). -/
def endsWithL (s l : List Char) : Bool :=
  startsWithL s.reverse l.reverse

/-- Python str.lstrip with no argument: drop leading whitespace. -/
def lstripWs (l : List Char) : List Char :=
  l.dropWhile pyIsSpace

/-- Python str.rstrip with no argument: drop trailing whitespace. -/
def rstripWs (l : List Char) : List Char :=
  (l.reverse.dropWhile pyIsSpace).reverse

/-- Python str.strip with no argument. -/
def stripWs (l : List Char) : List Char :=
  rstripWs (lstripWs l)

/-- Python s.lstrip of only newline characters. -/
def lstripNl (l : List Char) : List Char :=
  l.dropWhile (fun c => c == '\n')

/-- Python content.split of a single newline character. -/
def splitLinesCh : List Char → List (List Char)
  | [] => [[]]
  | '\n' :: rest => [] :: splitLinesCh rest
  | c :: rest =>
    match splitLinesCh rest with
    | [] => [[c]]
    | l :: ls => (c :: l) :: ls

/-- Python newline.join of a list of lines. -/
def joinNl : List (List Char) → List Char
  | [] => []
  | [l] => l
  | l :: ls => l ++ '\n' :: joinNl ls

/-! ## Section-header dialect: re.split on a marker line

The scripts split the document with re.split over the multiline pattern
of a line consisting of three dashes, a space, and a numeric key; the split
list alternates pre-text, captured key, body, captured key, body, … -/

/-- Nonempty all-digit run, the shape of one numeric component. -/
def allDigits (l : List Char) : Bool :=
  !l.isEmpty && l.all isDigitCh

/-- Split a character list at every dot character. -/
def splitDot : List Char → List (List Char)
  | [] => [[]]
  | '.' :: rest => [] :: splitDot rest
  | c :: rest =>
    match splitDot rest with
    | [] => [[c]]
    | l :: ls => (c :: l) :: ls

/-- Key shape of the plain integer marker pattern. -/
def isIntKey (l : List Char) : Bool :=
  allDigits l

/-- Key shape of the dotted chapter.verse marker pattern. -/
def isDottedKey (l : List Char) : Bool :=
  match splitDot l with
  | [a, b] => allDigits a && allDigits b
  | _ => false

/-- Recognise a marker line: three dashes, one space, then a key of the
given shape reaching the end of the line; yields the captured key. -/
def sectionKeyOf (isKey : List Char → Bool) : List Char → Option (List Char)
  | '-' :: '-' :: '-' :: ' ' :: rest => if isKey rest then some rest else none
  | _ => none

/-- Scan the line list from the left, returning the lines before the first
marker and, per marker, its key with the lines up to the next marker. -/
def scanMarks (isKey : List Char → Bool) : List (List Char) →
    List (List Char) × List (List Char × List (List Char))
  | [] => ([], [])
  | l :: ls =>
    let r := scanMarks isKey ls
    match sectionKeyOf isKey l with
    | some k => ([], (k, r.1) :: r.2)
    | none => (l :: r.1, r.2)

/-- Rebuild the pre-marker split piece: each pre line is followed by the
newline that separated it from what follows. -/
def joinPre : List (List Char) → List Char
  | [] => []
  | l :: ls => l ++ '\n' :: joinPre ls

/-- Rebuild a body split piece: each body line is preceded by the newline
that separated it from the marker line or previous body line. -/
def joinBody : List (List Char) → List Char
  | [] => []
  | l :: ls => '\n' :: (l ++ joinBody ls)

/-- Interleave keys and bodies into the flat re.split list; every body but
the last regains the newline preceding the next marker line. -/
def assembleBodies : List (List Char × List (List Char)) → List (List Char)
  | [] => []
  | [(k, bls)] => [k, joinBody bls]
  | (k, bls) :: rest => k :: (joinBody bls ++ ['\n']) :: assembleBodies rest

/-- Model of re.split with the multiline marker pattern: with no marker the
whole document is the single piece, otherwise pre-text alternates with
captured keys and bodies. -/
def reSplitList (isKey : List Char → Bool) (content : List Char) : List (List Char) :=
  match scanMarks isKey (splitLinesCh content) with
  | (_, []) => [content]
  | (pre, frags) => joinPre pre :: assembleBodies frags

/-- Drop the leading split piece exactly when it strips to nothing,
mirroring the guarded sections = sections[1:]. -/
def shiftSections : List (List Char) → List (List Char)
  | [] => []
  | s :: rest => if stripWs s = [] then rest else s :: rest

/-- Python loop for i in range(0, len(sections) - 1, 2) pairing
(sections[i], sections[i + 1]). -/
def processSections : List (List Char) → List (List Char × List Char)
  | a :: b :: rest => (a, b) :: processSections rest
  | _ => []

/-- Key/body pairs the section scripts iterate over. -/
def sectionPairs (isKey : List Char → Bool) (content : List Char) :
    List (List Char × List Char) :=
  processSections (shiftSections (reSplitList isKey content))

/-- Shared body of the section-header extraction scripts: a cleaning pass,
lstrip of newlines, rstrip, and the empty-section skip. -/
def sectionUnits (isKey : List Char → Bool) (clean : List Char → List Char)
    (content : List Char) : List (List Char × List Char) :=
  (sectionPairs isKey content).filterMap fun p =>
    if stripWs (rstripWs (lstripNl (clean p.2))) = [] then none
    else some (p.1, rstripWs (lstripNl (clean p.2)))

namespace BcaP

/-- Embedding of bca_p_extraction.extract_commentary_sections: dotted keys,
no cleaning pass; returns the (key, content) units in emission order. -/
def extract_commentary_sections (content : List Char) : List (List Char × List Char) :=
  sectionUnits isDottedKey id content

end BcaP

namespace Mua

/-- Embedding of mua_extraction.extract_mua_commentary: integer keys,
no cleaning pass. -/
def extract_mua_commentary (content : List Char) : List (List Char × List Char) :=
  sectionUnits isIntKey id content

end Mua

/-- Cleaning pass of seni_extract.extract_commentary_sections: drop every
line whose stripped form starts with the root marker character. -/
def seniClean (b : List Char) : List Char :=
  joinNl ((splitLinesCh b).filter fun l => !startsWithL ['>'] (stripWs l))

namespace SeniComm

/-- Embedding of seni_extract.extract_commentary_sections: integer keys,
root lines removed before trimming. -/
def extract_commentary_sections (content : List Char) : List (List Char × List Char) :=
  sectionUnits isIntKey seniClean content

end SeniComm

/-! ## Verse-end dialect (bca_root_extract) -/

/-- Try to parse the dotted verse-end marker at the head of the text:
double bar, space, digits, dot, digits, space, double bar. Returns the
captured key and the rest of the text. -/
def dottedAt : List Char → Option (List Char × List Char)
  | '|' :: '|' :: ' ' :: rest =>
    if (rest.takeWhile isDigitCh).isEmpty then none
    else
      match rest.dropWhile isDigitCh with
      | '.' :: r2 =>
        if (r2.takeWhile isDigitCh).isEmpty then none
        else
          match r2.dropWhile isDigitCh with
          | ' ' :: '|' :: '|' :: r4 =>
            some (rest.takeWhile isDigitCh ++ '.' :: r2.takeWhile isDigitCh, r4)
          | _ => none
      | _ => none
  | _ => none

/-- Fuelled scan realising re.findall with a lazy prefix up to each
verse-end marker: emit (text before marker, key) and resume after it. -/
def scanVsF : Nat → List Char → List Char → List (List Char × List Char)
  | 0, _, _ => []
  | _ + 1, _, [] => []
  | fuel + 1, acc, c :: cs =>
    match dottedAt (c :: cs) with
    | some kr => (acc.reverse, kr.1) :: scanVsF fuel [] kr.2
    | none => scanVsF fuel (c :: acc) cs

/-- All (verse text, verse number) matches of the verse pattern, in order. -/
def scanVerses (content : List Char) : List (List Char × List Char) :=
  scanVsF (content.length + 1) [] content

namespace BcaRoot

/-- Embedding of bca_root_extract.extract_verse_sections: strip each raw
verse, skip empties, re-append the marker; returns (key, content) units. -/
def extract_verse_sections (content : List Char) : List (List Char × List Char) :=
  (scanVerses content).filterMap fun m =>
    if stripWs (lstripNl (stripWs m.1)) = [] then none
    else some (m.2, lstripNl (stripWs m.1) ++ (" || ".data ++ m.2 ++ (" ||".data)))

end BcaRoot

/-! ## Labeled verse-end dialect (seni_extract root verses) -/

/-- Try to match the labeled marker pattern at the head of a line: double
bar, space, the SeNi label, space, digits, space, double bar, then only
whitespace to the end of the line. Yields the captured digits. -/
def seniMarkerAt : List Char → Option (List Char)
  | '|' :: '|' :: ' ' :: 'S' :: 'e' :: 'N' :: 'i' :: ' ' :: rest =>
    if (rest.takeWhile isDigitCh).isEmpty then none
    else
      match rest.dropWhile isDigitCh with
      | ' ' :: '|' :: '|' :: r2 =>
        if r2.all pyIsSpace then some (rest.takeWhile isDigitCh) else none
      | _ => none
  | _ => none

/-- Leftmost search of the labeled marker pattern within a line,
mirroring re.search. -/
def seniSearch : List Char → Option (List Char)
  | [] => none
  | c :: rest =>
    match seniMarkerAt (c :: rest) with
    | some d => some d
    | none => seniSearch rest

/-- The processed root lines of the document: lines whose stripped form
starts with the marker character, stripped, unmarked, stripped again. -/
def seniVerseLines (content : List Char) : List (List Char) :=
  (splitLinesCh content).filterMap fun l =>
    match stripWs l with
    | '>' :: rest => some (stripWs rest)
    | _ => none

/-- Python dict assignment on an insertion-ordered association list:
an existing key keeps its position and takes the new value. -/
def dictInsert (k v : List Char) : List (List Char × List Char) →
    List (List Char × List Char)
  | [] => [(k, v)]
  | (k', v') :: rest => if k' = k then (k, v) :: rest else (k', v') :: dictInsert k v rest

/-- Accumulate root lines until one carries a labeled marker, then store
the joined group in the verse dictionary under the captured number. -/
def seniGroup : List (List Char) → List (List Char) →
    List (List Char × List Char) → List (List Char × List Char)
  | _, [], dict => dict
  | cur, l :: ls, dict =>
    match seniSearch l with
    | some n => seniGroup [] ls (dictInsert n (joinNl (cur ++ [l])) dict)
    | none => seniGroup (cur ++ [l]) ls dict

namespace Seni

/-- Embedding of seni_extract.extract_root_verses: the verse dictionary
built from the processed root lines, in insertion order. -/
def extract_root_verses (content : List Char) : List (List Char × List Char) :=
  seniGroup [] (seniVerseLines content) []

end Seni

/-! ## Line-prefix dialect (medū) -/

/-- Python content.split on the three-dash separator string. -/
def splitTriple : List Char → List (List Char)
  | '-' :: '-' :: '-' :: rest => [] :: splitTriple rest
  | c :: rest =>
    match splitTriple rest with
    | [] => [[c]]
    | l :: ls => (c :: l) :: ls
  | [] => [[]]

/-- Classified lines of a fragment: marker character removed, kept only
when something remains after stripping. -/
def rootLinesL (ls : List (List Char)) : List (List Char) :=
  ls.filterMap fun l =>
    match l with
    | '>' :: rest => if stripWs rest = [] then none else some rest
    | _ => none

/-- Unclassified lines of a fragment: non-empty lines not starting with
the marker character, kept verbatim. -/
def commLinesL (ls : List (List Char)) : List (List Char) :=
  ls.filter fun l => !l.isEmpty && !startsWithL ['>'] l

namespace Medu

/-- Loop of medū extract_root_verses: the counter advances only when a
fragment actually yields a root verse. -/
def rootGo : Nat → List (List Char) → List (Nat × List Char)
  | _, [] => []
  | n, sec :: rest =>
    if stripWs sec = [] then rootGo n rest
    else
      if (rootLinesL (splitLinesCh (stripWs sec))).length = 2 then
        (n, stripWs (joinNl (rootLinesL (splitLinesCh (stripWs sec))))) ::
          rootGo (n + 1) rest
      else if (rootLinesL (splitLinesCh (stripWs sec))).length > 0 then
        (n, stripWs (joinNl (rootLinesL (splitLinesCh (stripWs sec))))) ::
          rootGo (n + 1) rest
      else rootGo n rest

/-- Embedding of medū extract_root_verses. -/
def extract_root_verses (content : List Char) : List (Nat × List Char) :=
  rootGo 1 (splitTriple content)

/-- Loop of medū extract_commentary: the counter advances on every
non-blank fragment, emitted or not. -/
def commGo : Nat → List (List Char) → List (Nat × List Char)
  | _, [] => []
  | n, sec :: rest =>
    if stripWs sec = [] then commGo n rest
    else
      if (commLinesL (splitLinesCh (stripWs sec))).isEmpty then commGo (n + 1) rest
      else
        (n, stripWs (joinNl (commLinesL (splitLinesCh (stripWs sec))))) ::
          commGo (n + 1) rest

/-- Embedding of medū extract_commentary. -/
def extract_commentary (content : List Char) : List (Nat × List Char) :=
  commGo 1 (splitTriple content)

end Medu

/-- Enumerate a list with keys counting up from `n`. -/
def enumFrom : Nat → List α → List (Nat × α)
  | _, [] => []
  | n, a :: as => (n, a) :: enumFrom (n + 1) as

/-- The non-blank fragments of a line-prefix document, each stripped,
in document order. -/
def nonBlankSecs (content : List Char) : List (List Char) :=
  (splitTriple content).filterMap fun s =>
    if stripWs s = [] then none else some (stripWs s)

/-! ## Pairing aggregator (count_pairs) -/

/-- One entry of the results list of count_pairs_root_first. -/
structure RootResult where
  root : List Char
  commentaries : List (List Char)
  pairs : Nat
  type : String
deriving Repr, DecidableEq

/-- Counters threaded through the root-file loop. -/
structure LoopState where
  total_pairs : Nat
  root_only_count : Nat
  single_pair_count : Nat
  multiple_pair_count : Nat
  results : List RootResult
deriving Repr, DecidableEq

/-- The report returned by count_pairs_root_first. -/
structure PairStats where
  total_root_files : Nat
  root_only_count : Nat
  single_pair_count : Nat
  multiple_pair_count : Nat
  total_pairs : Nat
  results : List RootResult
deriving Repr, DecidableEq

/-- Root-identifier test: the filename ends in the root discriminator. -/
def isRootFile (f : List Char) : Bool :=
  endsWithL ("_root".data) f

/-- Python root_file[:-5], the identifier with the root discriminator cut. -/
def rootStem (f : List Char) : List Char :=
  f.take (f.length - 5)

/-- Commentary identifiers matched to a stem: files starting with the stem
plus separator that do not themselves end in the root discriminator. -/
def commentariesFor (files : List (List Char)) (stem : List Char) : List (List Char) :=
  files.filter fun f =>
    startsWithL (stem ++ ['_']) f && !endsWithL ("_root".data) f

/-- Category name as a pure function of the match count. -/
def categoryOf (n : Nat) : String :=
  if n = 0 then "root-only" else if n = 1 then "single-pair" else "multiple-pairs"

/-- Body of the per-root-file loop of count_pairs_root_first. -/
def processRoot (files : List (List Char)) (st : LoopState) (rf : List Char) : LoopState :=
  let cs := commentariesFor files (rootStem rf)
  if cs.length = 0 then
    { st with root_only_count := st.root_only_count + 1,
              results := st.results ++ [⟨rf, cs, 0, "root-only"⟩] }
  else if cs.length = 1 then
    { st with single_pair_count := st.single_pair_count + 1,
              total_pairs := st.total_pairs + 1,
              results := st.results ++ [⟨rf, cs, 1, "single-pair"⟩] }
  else
    { st with multiple_pair_count := st.multiple_pair_count + 1,
              total_pairs := st.total_pairs + cs.length,
              results := st.results ++ [⟨rf, cs, cs.length, "multiple-pairs"⟩] }

/-- The loop over all root files. -/
def countLoop (files : List (List Char)) : List (List Char) → LoopState → LoopState
  | [], st => st
  | rf :: rest, st => countLoop files rest (processRoot files st rf)

/-- Embedding of count_pairs_root_first over a directory listing. -/
def count_pairs_root_first (files : List (List Char)) : PairStats :=
  let rfs := files.filter isRootFile
  let st := countLoop files rfs ⟨0, 0, 0, 0, []⟩
  ⟨rfs.length, st.root_only_count, st.single_pair_count,
    st.multiple_pair_count, st.total_pairs, st.results⟩

/-- Sum of the pair counts over the multiple-pairs results. -/
def multiplePairsSum (rs : List RootResult) : Nat :=
  ((rs.filter fun r => r.type == "multiple-pairs").map fun r => r.pairs).sum

/-! ## Edge-trim relation used by the content-fidelity claims -/

/-- The content `c` is the source text `s` with whitespace removed only at
the two edges: interior characters, line breaks and indentation included,
are untouched. -/
def edgeTrimOf (c s : List Char) : Prop :=
  ∃ pre post, s = pre ++ c ++ post ∧ pre.all pyIsSpace ∧ post.all pyIsSpace

/-- Boolean decision procedure for `edgeTrimOf`. -/
def edgeTrimB (c s : List Char) : Bool :=
  (startsWithL c s && (s.drop c.length).all pyIsSpace) ||
    match s with
    | [] => false
    | x :: rest => pyIsSpace x && edgeTrimB c rest

/-! ## General helper lemmas -/

theorem startsWithL_iff {p l : List Char} :
    startsWithL p l = true ↔ ∃ t, l = p ++ t := by
  induction p generalizing l with
  | nil => simp [startsWithL]
  | cons a ps ih =>
    cases l with
    | nil => simp [startsWithL]
    | cons c cs =>
      simp only [startsWithL, Bool.and_eq_true, beq_iff_eq, ih]
      constructor
      · rintro ⟨rfl, t, rfl⟩
        exact ⟨t, rfl⟩
      · rintro ⟨t, h⟩
        cases h
        exact ⟨rfl, t, rfl⟩

theorem endsWithL_iff {s l : List Char} :
    endsWithL s l = true ↔ ∃ t, l = t ++ s := by
  unfold endsWithL
  rw [startsWithL_iff]
  constructor
  · rintro ⟨t, h⟩
    refine ⟨t.reverse, ?_⟩
    have := congrArg List.reverse h
    simpa [List.reverse_append] using this
  · rintro ⟨t, rfl⟩
    exact ⟨t.reverse, by simp [List.reverse_append]⟩

theorem dropWhile_dropWhile {p : Char → Bool} (l : List Char) :
    (l.dropWhile p).dropWhile p = l.dropWhile p := by
  induction l with
  | nil => rfl
  | cons c t ih =>
    by_cases h : p c
    · simpa [List.dropWhile_cons, h] using ih
    · simp [List.dropWhile_cons, h]

theorem lstripWs_decomp (l : List Char) :
    l = l.takeWhile pyIsSpace ++ lstripWs l ∧
      (l.takeWhile pyIsSpace).all pyIsSpace = true := by
  refine ⟨(List.takeWhile_append_dropWhile pyIsSpace l).symm, ?_⟩
  exact List.all_eq_true.mpr fun x hx => List.mem_takeWhile_imp hx

theorem rstripWs_decomp (l : List Char) :
    ∃ t, l = rstripWs l ++ t ∧ t.all pyIsSpace = true := by
  refine ⟨(l.reverse.takeWhile pyIsSpace).reverse, ?_, ?_⟩
  · unfold rstripWs
    conv_lhs => rw [← l.reverse_reverse,
      ← List.takeWhile_append_dropWhile pyIsSpace l.reverse]
    rw [List.reverse_append]
  · rw [List.all_reverse]
    exact List.all_eq_true.mpr fun x hx => List.mem_takeWhile_imp hx

theorem stripWs_decomp (l : List Char) :
    ∃ pre post, l = pre ++ stripWs l ++ post ∧
      pre.all pyIsSpace = true ∧ post.all pyIsSpace = true := by
  obtain ⟨t, ht, hall⟩ := rstripWs_decomp (lstripWs l)
  obtain ⟨hl, hpre⟩ := lstripWs_decomp l
  refine ⟨l.takeWhile pyIsSpace, t, ?_, hpre, hall⟩
  conv_lhs => rw [hl, ht]
  simp [stripWs, List.append_assoc]

theorem stripWs_eq_nil_iff {l : List Char} :
    stripWs l = [] ↔ l.all pyIsSpace = true := by
  constructor
  · intro h
    obtain ⟨pre, post, hl, hpre, hpost⟩ := stripWs_decomp l
    rw [h] at hl
    subst hl
    simp_all
  · intro h
    have h1 : lstripWs l = [] := by
      unfold lstripWs
      exact List.dropWhile_eq_nil_iff.mpr fun x hx => List.all_eq_true.mp h x hx
    simp [stripWs, h1, rstripWs]

theorem rstripWs_idem (l : List Char) : rstripWs (rstripWs l) = rstripWs l := by
  unfold rstripWs
  rw [List.reverse_reverse, dropWhile_dropWhile]

theorem rstripWs_stripWs (l : List Char) : rstripWs (stripWs l) = stripWs l := by
  unfold stripWs
  exact rstripWs_idem _

theorem rstripWs_concat_space {a : List Char} {w : Char} (hw : pyIsSpace w = true) :
    rstripWs (a ++ [w]) ≠ a ++ [w] := by
  intro h
  have hlen : (rstripWs (a ++ [w])).length ≤ a.length := by
    unfold rstripWs
    rw [List.reverse_append]
    simp only [List.reverse_cons, List.reverse_nil, List.nil_append, List.singleton_append,
      List.dropWhile_cons, hw]
    simpa using (List.dropWhile_sublist pyIsSpace (l := a.reverse)).length_le
  rw [h] at hlen
  simp at hlen

theorem no_trailing_of_rstrip_fix {l a ws : List Char}
    (hfix : rstripWs l = l) (hdec : l = a ++ ws) (hws : ws.all pyIsSpace = true) :
    ws = [] := by
  rcases List.eq_nil_or_concat ws with rfl | ⟨ws', w, rfl⟩
  · rfl
  · exfalso
    have hw : pyIsSpace w = true := by
      have := List.all_eq_true.mp hws w
      simp [List.concat_eq_append] at this
      exact this
    have : rstripWs ((a ++ ws') ++ [w]) ≠ (a ++ ws') ++ [w] :=
      rstripWs_concat_space hw
    apply this
    rw [List.concat_eq_append, ← List.append_assoc] at hdec
    rw [← hdec]
    exact hfix

theorem head_not_space_of_dropWhile {m : List Char} {c : Char} {t : List Char}
    (h : m.dropWhile pyIsSpace = c :: t) : pyIsSpace c = false := by
  have hne : m.dropWhile pyIsSpace ≠ [] := by simp [h]
  have hw := List.head_dropWhile_not pyIsSpace m hne
  have hc : (m.dropWhile pyIsSpace).head hne = c := by simp [h]
  rwa [hc] at hw

theorem lstripNl_stripWs (l : List Char) : lstripNl (stripWs l) = stripWs l := by
  unfold stripWs
  obtain ⟨t, ht, hall⟩ := rstripWs_decomp (lstripWs l)
  cases hr : rstripWs (lstripWs l) with
  | nil => rfl
  | cons c cs =>
    rw [hr] at ht
    have hmc : (lstripWs l).dropWhile pyIsSpace = lstripWs l := dropWhile_dropWhile l
    have hhead : (lstripWs l).dropWhile pyIsSpace = c :: (cs ++ t) := by
      rw [hmc, ht]
      simp
    have hc : pyIsSpace c = false := head_not_space_of_dropWhile hhead
    have hcn : (c == '\n') = false := by
      refine Bool.eq_false_iff.mpr fun hbe => ?_
      rw [beq_iff_eq.mp hbe] at hc
      exact absurd hc (by decide)
    simp [lstripNl, List.dropWhile_cons, hcn]

/-! ## Pairing aggregator lemmas and claims -/

theorem rootStem_append {f : List Char} (h : isRootFile f = true) :
    rootStem f ++ ("_root".data) = f := by
  obtain ⟨t, rfl⟩ := endsWithL_iff.mp h
  unfold rootStem
  have hlen : (t ++ ("_root".data)).length - 5 = t.length := by
    simp [List.length_append]
  rw [hlen, List.take_left]

theorem processRoot_results (files : List (List Char)) (st : LoopState) (rf : List Char) :
    (processRoot files st rf).results =
      st.results ++ [⟨rf, commentariesFor files (rootStem rf),
        (commentariesFor files (rootStem rf)).length,
        categoryOf (commentariesFor files (rootStem rf)).length⟩] := by
  unfold processRoot categoryOf
  set cs := commentariesFor files (rootStem rf)
  by_cases h0 : cs.length = 0
  · simp [h0]
  · by_cases h1 : cs.length = 1
    · simp [h0, h1]
    · simp [h0, h1]

theorem countLoop_results_mem {files : List (List Char)} {l : List (List Char)}
    {st : LoopState} {r : RootResult} (h : r ∈ (countLoop files l st).results) :
    r ∈ st.results ∨ ∃ rf, rf ∈ l ∧
      r = ⟨rf, commentariesFor files (rootStem rf),
        (commentariesFor files (rootStem rf)).length,
        categoryOf (commentariesFor files (rootStem rf)).length⟩ := by
  induction l generalizing st with
  | nil => exact Or.inl h
  | cons rf rest ih =>
    rcases ih h with hmem | ⟨rf', hrf', rfl⟩
    · rw [processRoot_results] at hmem
      rcases List.mem_append.mp hmem with h' | h'
      · exact Or.inl h'
      · simp only [List.mem_singleton] at h'
        exact Or.inr ⟨rf, by simp, h'⟩
    · exact Or.inr ⟨rf', by simp [hrf'], rfl⟩

/-- Claim C1: for every listing, the aggregator matches to each root
identifier (one ending in the root discriminator, whose stem plus
discriminator re-forms it) exactly the identifiers of the listing that
start with stem plus separator and do not themselves end in the root
discriminator; each result's category is a pure function of its match
count; and the listing x_1_root, x_1_p, x_1_q, x_2_root yields root
x_1_root with 2 matches (multiple-pairs), root x_2_root with 0 matches
(root-only), and total_pairs 2. -/
theorem C1_pairing_matches :
    (∀ files stem g, g ∈ commentariesFor files stem ↔
      g ∈ files ∧ startsWithL (stem ++ ['_']) g = true ∧
        endsWithL ("_root".data) g = false) ∧
    (∀ f, isRootFile f = true → rootStem f ++ ("_root".data) = f) ∧
    (∀ files r, r ∈ (count_pairs_root_first files).results →
      r.type = categoryOf r.pairs ∧ r.pairs = r.commentaries.length) ∧
    count_pairs_root_first
        ([ "x_1_root".data, "x_1_p".data, "x_1_q".data, "x_2_root".data ]) =
      ⟨2, 1, 0, 1, 2,
        [⟨"x_1_root".data, ["x_1_p".data, "x_1_q".data], 2, "multiple-pairs"⟩,
         ⟨"x_2_root".data, [], 0, "root-only"⟩]⟩ := by
  refine ⟨?_, fun f h => rootStem_append h, ?_, by decide⟩
  · intro files stem g
    unfold commentariesFor
    rw [List.mem_filter]
    simp [Bool.and_eq_true, Bool.not_eq_true', and_assoc]
  · intro files r hr
    unfold count_pairs_root_first at hr
    simp only at hr
    rcases countLoop_results_mem hr with hmem | ⟨rf, _, rfl⟩
    · simp at hmem
    · exact ⟨rfl, rfl⟩

/-- Witness for C1 at the concrete listing: x_1_p is a match for
x_1_root, the stem of x_1_root re-forms it, and the first result's
category is that of its match count. -/
theorem C1_pairing_matches_witness :
    ("x_1_p".data ∈ commentariesFor
        ([ "x_1_root".data, "x_1_p".data, "x_1_q".data, "x_2_root".data ]) ("x_1".data)) ∧
    rootStem ("x_1_root".data) ++ ("_root".data) = "x_1_root".data ∧
    (⟨"x_1_root".data, ["x_1_p".data, "x_1_q".data], 2, "multiple-pairs"⟩ : RootResult).type =
      categoryOf 2 := by
  refine ⟨?_, ?_, ?_⟩
  · exact (C1_pairing_matches.1 _ _ _).mpr (by decide)
  · exact C1_pairing_matches.2.1 ("x_1_root".data) (by decide)
  · exact (C1_pairing_matches.2.2.1
      ([ "x_1_root".data, "x_1_p".data, "x_1_q".data, "x_2_root".data ])
      ⟨"x_1_root".data, ["x_1_p".data, "x_1_q".data], 2, "multiple-pairs"⟩
      (by decide)).1

theorem multiplePairsSum_append (rs : List RootResult) (r : RootResult) :
    multiplePairsSum (rs ++ [r]) =
      multiplePairsSum rs + (if r.type == "multiple-pairs" then r.pairs else 0) := by
  unfold multiplePairsSum
  rw [List.filter_append]
  by_cases h : r.type == "multiple-pairs"
  · simp [h, List.sum_append]
  · simp [h]

theorem processRoot_inv {files : List (List Char)} {st : LoopState} (rf : List Char)
    (h1 : st.total_pairs = st.single_pair_count + multiplePairsSum st.results)
    (h2 : st.root_only_count + st.single_pair_count + st.multiple_pair_count =
      st.results.length) :
    (processRoot files st rf).total_pairs =
        (processRoot files st rf).single_pair_count +
          multiplePairsSum (processRoot files st rf).results ∧
      (processRoot files st rf).root_only_count +
          (processRoot files st rf).single_pair_count +
          (processRoot files st rf).multiple_pair_count =
        (processRoot files st rf).results.length := by
  have hro : ((("root-only" : String)) == "multiple-pairs") = false := by decide
  have hsp : ((("single-pair" : String)) == "multiple-pairs") = false := by decide
  have hmp : ((("multiple-pairs" : String)) == "multiple-pairs") = true := by decide
  unfold processRoot
  by_cases h0 : (commentariesFor files (rootStem rf)).length = 0
  · rw [if_pos h0]
    constructor
    · simp [multiplePairsSum_append, hro]
      omega
    · simp only [List.length_append, List.length_cons, List.length_nil]
      omega
  · rw [if_neg h0]
    by_cases hone : (commentariesFor files (rootStem rf)).length = 1
    · rw [if_pos hone]
      constructor
      · simp [multiplePairsSum_append, hsp]
        omega
      · simp only [List.length_append, List.length_cons, List.length_nil]
        omega
    · rw [if_neg hone]
      constructor
      · simp [multiplePairsSum_append, hmp]
        omega
      · simp only [List.length_append, List.length_cons, List.length_nil]
        omega

theorem countLoop_inv (files : List (List Char)) (l : List (List Char)) :
    ∀ st : LoopState,
      st.total_pairs = st.single_pair_count + multiplePairsSum st.results →
      st.root_only_count + st.single_pair_count + st.multiple_pair_count =
        st.results.length →
      (countLoop files l st).total_pairs =
          (countLoop files l st).single_pair_count +
            multiplePairsSum (countLoop files l st).results ∧
        (countLoop files l st).root_only_count +
            (countLoop files l st).single_pair_count +
            (countLoop files l st).multiple_pair_count =
          (countLoop files l st).results.length := by
  induction l with
  | nil => exact fun st h1 h2 => ⟨h1, h2⟩
  | cons rf rest ih =>
    intro st h1 h2
    obtain ⟨p1, p2⟩ := @processRoot_inv files st rf h1 h2
    exact ih (processRoot files st rf) p1 p2

theorem countLoop_results_length (files : List (List Char)) (l : List (List Char)) :
    ∀ st : LoopState,
      (countLoop files l st).results.length = st.results.length + l.length := by
  induction l with
  | nil => intro st; simp [countLoop]
  | cons rf rest ih =>
    intro st
    show (countLoop files rest (processRoot files st rf)).results.length = _
    rw [ih, processRoot_results]
    simp only [List.length_append, List.length_cons, List.length_nil]
    omega

/-- Claim C2: for every listing, the report satisfies total_pairs =
single_pair_count + the sum of pair counts over the multiple-pairs
results, and root_only_count + single_pair_count + multiple_pair_count =
total_root_files. -/
theorem C2_report_identities (files : List (List Char)) :
    (count_pairs_root_first files).total_pairs =
      (count_pairs_root_first files).single_pair_count +
        multiplePairsSum (count_pairs_root_first files).results ∧
    (count_pairs_root_first files).root_only_count +
        (count_pairs_root_first files).single_pair_count +
        (count_pairs_root_first files).multiple_pair_count =
      (count_pairs_root_first files).total_root_files := by
  unfold count_pairs_root_first
  obtain ⟨i1, i2⟩ := countLoop_inv files (files.filter isRootFile)
    ⟨0, 0, 0, 0, []⟩ rfl rfl
  refine ⟨i1, ?_⟩
  rw [i2, countLoop_results_length]
  simp

/-- Claim C9: with roots x_1_root and x_1_2_root and the single commentary
file x_1_2_p, the commentary is matched to both roots (its name starts
with either stem plus separator), total_pairs is 2, and so total_pairs
exceeds the number of distinct commentary identifiers in the listing. -/
theorem C9_double_counting :
    ("x_1_2_p".data ∈ commentariesFor
        ([ "x_1_root".data, "x_1_2_root".data, "x_1_2_p".data ])
        (rootStem ("x_1_root".data))) ∧
    ("x_1_2_p".data ∈ commentariesFor
        ([ "x_1_root".data, "x_1_2_root".data, "x_1_2_p".data ])
        (rootStem ("x_1_2_root".data))) ∧
    (count_pairs_root_first
        ([ "x_1_root".data, "x_1_2_root".data, "x_1_2_p".data ])).total_pairs = 2 ∧
    ((([ "x_1_root".data, "x_1_2_root".data, "x_1_2_p".data ]).filter
        fun f => !isRootFile f).length = 1) ∧
    (count_pairs_root_first
        ([ "x_1_root".data, "x_1_2_root".data, "x_1_2_p".data ])).total_pairs >
      ((([ "x_1_root".data, "x_1_2_root".data, "x_1_2_p".data ]).filter
        fun f => !isRootFile f).length) := by
  decide

/-! ## Section-header dialect claims -/

/-- Claim C3 is refuted by the code: on a document whose pre-marker text is
non-blank, the guarded removal of the first split piece does not fire, the
key/body pairing shifts by one, and the script emits a single unit whose
key is the intro text itself and whose content is the first marker number;
the body after the marker is never emitted. The spec's discard and
reconstruction properties both fail here. -/
theorem C3_intro_shift_bug :
    BcaP.extract_commentary_sections ("INTRO\n--- 1.1\nAlpha\n".data) =
      [(("INTRO\n".data), ("1.1".data))] ∧
    reSplitList isDottedKey ("INTRO\n--- 1.1\nAlpha\n".data) =
      [("INTRO\n".data), ("1.1".data), ("\nAlpha\n".data)] := by
  constructor
  · rfl
  · rfl

/-! ## Verse-end dialect lemmas -/

theorem mem_seniVerseLines_strip {content l : List Char}
    (h : l ∈ seniVerseLines content) : rstripWs l = l := by
  rcases List.mem_filterMap.mp h with ⟨x, _, hfx⟩
  split at hfx
  · cases hfx
    exact rstripWs_stripWs _
  · cases hfx

theorem dictInsert_mem {k w a b : List Char} {d : List (List Char × List Char)}
    (h : (a, b) ∈ dictInsert k w d) : (a = k ∧ b = w) ∨ (a, b) ∈ d := by
  induction d with
  | nil =>
    simp only [dictInsert, List.mem_singleton] at h
    left
    exact ⟨congrArg Prod.fst h, congrArg Prod.snd h⟩
  | cons p rest ih =>
    obtain ⟨k', v'⟩ := p
    by_cases hk : k' = k
    · rw [show dictInsert k w ((k', v') :: rest) = (k, w) :: rest from by
        simp [dictInsert, hk]] at h
      rcases List.mem_cons.mp h with heq | hmem
      · left
        exact ⟨congrArg Prod.fst heq, congrArg Prod.snd heq⟩
      · right
        exact List.mem_cons_of_mem _ hmem
    · rw [show dictInsert k w ((k', v') :: rest) = (k', v') :: dictInsert k w rest from by
        simp [dictInsert, hk]] at h
      rcases List.mem_cons.mp h with heq | hmem
      · right
        exact List.mem_cons.mpr (Or.inl heq)
      · rcases ih hmem with hl | hr
        · exact Or.inl hl
        · exact Or.inr (List.mem_cons_of_mem _ hr)

theorem seniGroup_mem {n v : List Char} :
    ∀ (ls cur : List (List Char)) (dict : List (List Char × List Char)),
      (n, v) ∈ seniGroup cur ls dict →
      (n, v) ∈ dict ∨
        ∃ cur' l, v = joinNl (cur' ++ [l]) ∧ seniSearch l = some n ∧ l ∈ ls := by
  intro ls
  induction ls with
  | nil => exact fun cur dict h => Or.inl h
  | cons l ls ih =>
    intro cur dict h
    cases hsl : seniSearch l with
    | some m =>
      rw [show seniGroup cur (l :: ls) dict =
          seniGroup [] ls (dictInsert m (joinNl (cur ++ [l])) dict) from by
        rw [seniGroup, hsl]] at h
      rcases ih [] _ h with hd | ⟨cur', l', hv, hs, hmem⟩
      · rcases dictInsert_mem hd with ⟨rfl, rfl⟩ | hd'
        · exact Or.inr ⟨cur, l, rfl, hsl, List.mem_cons_self l ls⟩
        · exact Or.inl hd'
      · exact Or.inr ⟨cur', l', hv, hs, List.mem_cons_of_mem _ hmem⟩
    | none =>
      rw [show seniGroup cur (l :: ls) dict = seniGroup (cur ++ [l]) ls dict from by
        rw [seniGroup, hsl]] at h
      rcases ih _ _ h with hd | ⟨cur', l', hv, hs, hmem⟩
      · exact Or.inl hd
      · exact Or.inr ⟨cur', l', hv, hs, List.mem_cons_of_mem _ hmem⟩

theorem seniMarkerAt_decomp {l d : List Char} (h : seniMarkerAt l = some d) :
    ∃ ws, l = ("|| SeNi ".data) ++ d ++ (" ||".data) ++ ws ∧
      ws.all pyIsSpace = true := by
  unfold seniMarkerAt at h
  split at h
  · rename_i rest
    split at h
    · cases h
    · split at h
      · rename_i r2 heq
        split at h
        · rename_i hws
          cases h
          refine ⟨r2, ?_, hws⟩
          have hr : rest = rest.takeWhile isDigitCh ++ (' ' :: '|' :: '|' :: r2) := by
            conv_lhs => rw [← List.takeWhile_append_dropWhile isDigitCh rest, heq]
          conv_lhs => rw [hr]
          simp only [show ("|| SeNi ".data : List Char) =
              '|' :: '|' :: ' ' :: 'S' :: 'e' :: 'N' :: 'i' :: ' ' :: [] from rfl,
            show ((" ||".data : List Char)) = ' ' :: '|' :: '|' :: [] from rfl,
            List.cons_append, List.append_assoc, List.nil_append]
        · cases h
      · cases h
  · cases h

theorem seniSearch_decomp {l d : List Char} (h : seniSearch l = some d) :
    ∃ pre ws, l = pre ++ (("|| SeNi ".data) ++ d ++ (" ||".data)) ++ ws ∧
      ws.all pyIsSpace = true := by
  induction l with
  | nil => cases h
  | cons c rest ih =>
    rw [seniSearch] at h
    cases hm : seniMarkerAt (c :: rest) with
    | some d' =>
      rw [hm] at h
      cases h
      obtain ⟨ws, hdec, hws⟩ := seniMarkerAt_decomp hm
      exact ⟨[], ws, by simpa [List.append_assoc] using hdec, hws⟩
    | none =>
      rw [hm] at h
      obtain ⟨pre, ws, hdec, hws⟩ := ih h
      refine ⟨c :: pre, ws, ?_, hws⟩
      simp [hdec]

theorem joinNl_concat (cur : List (List Char)) (l : List Char) :
    ∃ t, joinNl (cur ++ [l]) = t ++ l := by
  induction cur with
  | nil => exact ⟨[], rfl⟩
  | cons a rest ih =>
    obtain ⟨t, ht⟩ := ih
    cases rest with
    | nil => exact ⟨a ++ ['\n'], by simp [joinNl]⟩
    | cons b r =>
      refine ⟨a ++ '\n' :: t, ?_⟩
      show joinNl (a :: b :: (r ++ [l])) = (a ++ '\n' :: t) ++ l
      rw [show joinNl (a :: b :: (r ++ [l])) =
          a ++ '\n' :: joinNl (b :: (r ++ [l])) from rfl,
        ← List.cons_append, ht]
      simp

theorem seniUnit_shape {content n v : List Char}
    (h : (n, v) ∈ Seni.extract_root_verses content) :
    ∃ cur l, v = joinNl (cur ++ [l]) ∧ seniSearch l = some n ∧
      l ∈ seniVerseLines content := by
  rcases seniGroup_mem (seniVerseLines content) [] [] h with hd | hs
  · cases hd
  · exact hs

theorem seniUnit_marker_suffix {content n v : List Char}
    (h : (n, v) ∈ Seni.extract_root_verses content) :
    ∃ t, v = t ++ (("|| SeNi ".data) ++ n ++ (" ||".data)) := by
  obtain ⟨cur, l, rfl, hsl, hmem⟩ := seniUnit_shape h
  obtain ⟨pre, ws, hdec, hws⟩ := seniSearch_decomp hsl
  have hfix : rstripWs l = l := mem_seniVerseLines_strip hmem
  have hwsnil : ws = [] :=
    no_trailing_of_rstrip_fix hfix (by rw [hdec, List.append_assoc]) hws
  subst hwsnil
  obtain ⟨t0, ht0⟩ := joinNl_concat cur l
  rw [ht0, hdec]
  exact ⟨t0 ++ pre, by simp [List.append_assoc]⟩

theorem bcaUnit_shape {content n v : List Char}
    (h : (n, v) ∈ BcaRoot.extract_verse_sections content) :
    ∃ raw, (raw, n) ∈ scanVerses content ∧
      stripWs (lstripNl (stripWs raw)) ≠ [] ∧
      v = lstripNl (stripWs raw) ++ ((" || ".data) ++ n ++ (" ||".data)) := by
  rcases List.mem_filterMap.mp h with ⟨m, hmem, hf⟩
  obtain ⟨raw, num⟩ := m
  simp only at hf
  split at hf
  · cases hf
  · rename_i hne
    cases hf
    exact ⟨raw, hmem, hne, rfl⟩

/-- Claim C4: under the verse-end dialect every persisted unit's content
ends, byte for byte, with the closing marker text that carries the unit's
key: for the dotted corpus the marker double-bar space key space
double-bar, for the labeled corpus the same with the SeNi label before
the key. -/
theorem C4_marker_suffix :
    (∀ content n v, (n, v) ∈ BcaRoot.extract_verse_sections content →
      ∃ t, v = t ++ (("|| ".data) ++ n ++ (" ||".data))) ∧
    (∀ content n v, (n, v) ∈ Seni.extract_root_verses content →
      ∃ t, v = t ++ (("|| SeNi ".data) ++ n ++ (" ||".data))) := by
  constructor
  · intro content n v h
    obtain ⟨raw, _, _, rfl⟩ := bcaUnit_shape h
    refine ⟨lstripNl (stripWs raw) ++ [' '], ?_⟩
    simp [List.append_assoc,
      show ((" || ".data : List Char)) = ' ' :: ("|| ".data) from rfl]
  · exact fun content n v h => seniUnit_marker_suffix h

/-- Witness for C4 on one-verse documents of each corpus. -/
theorem C4_marker_suffix_witness :
    (∃ t, ("a || 1.1 ||".data : List Char) =
      t ++ (("|| ".data) ++ ("1.1".data) ++ (" ||".data))) ∧
    (∃ t, ("y || SeNi 1 ||".data : List Char) =
      t ++ (("|| SeNi ".data) ++ ("1".data) ++ (" ||".data))) := by
  constructor
  · exact C4_marker_suffix.1 ("a || 1.1 ||".data) ("1.1".data)
      ("a || 1.1 ||".data) (by decide)
  · exact C4_marker_suffix.2 ("> y || SeNi 1 ||".data) ("1".data)
      ("y || SeNi 1 ||".data) (by decide)

theorem seniGroup_no_marker :
    ∀ (extra : List (List Char)), (∀ l ∈ extra, seniSearch l = none) →
      ∀ cur dict, seniGroup cur extra dict = dict := by
  intro extra
  induction extra with
  | nil => intro _ cur dict; rfl
  | cons l ls ih =>
    intro hx cur dict
    rw [show seniGroup cur (l :: ls) dict = seniGroup (cur ++ [l]) ls dict from by
      rw [seniGroup, hx l (List.mem_cons_self l ls)]]
    exact ih (fun x hx' => hx x (List.mem_cons_of_mem _ hx')) _ _

theorem seniGroup_append :
    ∀ (xs ys : List (List Char)), (∀ l ∈ ys, seniSearch l = none) →
      ∀ cur dict, seniGroup cur (xs ++ ys) dict = seniGroup cur xs dict := by
  intro xs
  induction xs with
  | nil =>
    intro ys hy cur dict
    show seniGroup cur ys dict = dict
    exact seniGroup_no_marker ys hy cur dict
  | cons l ls ih =>
    intro ys hy cur dict
    cases hsl : seniSearch l with
    | some m =>
      rw [show seniGroup cur ((l :: ls) ++ ys) dict =
          seniGroup [] (ls ++ ys) (dictInsert m (joinNl (cur ++ [l])) dict) from by
        rw [List.cons_append, seniGroup, hsl]]
      rw [show seniGroup cur (l :: ls) dict =
          seniGroup [] ls (dictInsert m (joinNl (cur ++ [l])) dict) from by
        rw [seniGroup, hsl]]
      exact ih ys hy _ _
    | none =>
      rw [show seniGroup cur ((l :: ls) ++ ys) dict =
          seniGroup (cur ++ [l]) (ls ++ ys) dict from by
        rw [List.cons_append, seniGroup, hsl]]
      rw [show seniGroup cur (l :: ls) dict = seniGroup (cur ++ [l]) ls dict from by
        rw [seniGroup, hsl]]
      exact ih ys hy _ _

/-- Claim C10: every persisted SeNi root unit is a marker-terminated
group - its content joins accumulated lines whose last line carries the
labeled marker with the unit's own key - and classified lines carrying no
marker are silently dropped when they follow the last marker: appending
marker-free lines to the processed line sequence leaves the verse
dictionary unchanged. -/
theorem C10_unterminated_dropped :
    (∀ content n v, (n, v) ∈ Seni.extract_root_verses content →
      ∃ cur l, v = joinNl (cur ++ [l]) ∧ seniSearch l = some n) ∧
    (∀ vls extra : List (List Char), (∀ l ∈ extra, seniSearch l = none) →
      seniGroup [] (vls ++ extra) [] = seniGroup [] vls []) := by
  constructor
  · intro content n v h
    obtain ⟨cur, l, hv, hs, _⟩ := seniUnit_shape h
    exact ⟨cur, l, hv, hs⟩
  · exact fun vls extra hx => seniGroup_append vls extra hx [] []

/-- Witness for C10: a one-verse document plus a trailing marker-free
classified line. -/
theorem C10_unterminated_dropped_witness :
    (∃ cur l, ("y || SeNi 2 ||".data : List Char) = joinNl (cur ++ [l]) ∧
      seniSearch l = some ("2".data)) ∧
    seniGroup [] (([ "a || SeNi 1 ||".data ] : List (List Char)) ++
        [ "trailing".data ]) [] =
      seniGroup [] ([ "a || SeNi 1 ||".data ]) [] := by
  constructor
  · exact C10_unterminated_dropped.1 ("> y || SeNi 2 ||".data) ("2".data)
      ("y || SeNi 2 ||".data) (by decide)
  · exact C10_unterminated_dropped.2 ([ "a || SeNi 1 ||".data ])
      ([ "trailing".data ]) (by decide)

/-! ## Empty-unit invariant (C7) -/

theorem sectionUnits_nonempty {isKey : List Char → Bool}
    {clean : List Char → List Char} {content k c : List Char}
    (h : (k, c) ∈ sectionUnits isKey clean content) :
    stripWs c ≠ [] ∧ c ≠ [] := by
  rcases List.mem_filterMap.mp h with ⟨p, _, hf⟩
  split at hf
  · cases hf
  · rename_i hne
    cases hf
    refine ⟨hne, ?_⟩
    intro hnil
    rw [hnil] at hne
    exact hne rfl

theorem joinNl_all_space :
    ∀ (ls : List (List Char)), (joinNl ls).all pyIsSpace = true →
      ∀ e ∈ ls, e.all pyIsSpace = true := by
  intro ls
  induction ls with
  | nil => simp
  | cons a rest ih =>
    cases rest with
    | nil =>
      intro h e he
      rcases List.mem_singleton.mp he with rfl
      simpa [joinNl] using h
    | cons b r =>
      intro h e he
      have h' : (a ++ '\n' :: joinNl (b :: r)).all pyIsSpace = true := h
      simp only [List.all_append, List.all_cons, Bool.and_eq_true] at h'
      rcases List.mem_cons.mp he with rfl | he'
      · exact h'.1
      · exact ih h'.2.2 e he'

theorem mem_rootLinesL {ls : List (List Char)} {e : List Char}
    (h : e ∈ rootLinesL ls) : stripWs e ≠ [] := by
  rcases List.mem_filterMap.mp h with ⟨l, _, hf⟩
  split at hf
  · split at hf
    · cases hf
    · rename_i hne
      cases hf
      exact hne
  · cases hf

theorem mem_rootGo {n : Nat} {v : List Char} :
    ∀ (secs : List (List Char)) (k : Nat), (n, v) ∈ Medu.rootGo k secs →
      ∃ sec, sec ∈ secs ∧ stripWs sec ≠ [] ∧
        rootLinesL (splitLinesCh (stripWs sec)) ≠ [] ∧
        v = stripWs (joinNl (rootLinesL (splitLinesCh (stripWs sec)))) := by
  intro secs
  induction secs with
  | nil => intro k h; cases h
  | cons sec rest ih =>
    intro k h
    rw [Medu.rootGo] at h
    by_cases hs : stripWs sec = []
    · rw [if_pos hs] at h
      obtain ⟨s, hmem, hrest⟩ := ih k h
      exact ⟨s, List.mem_cons_of_mem _ hmem, hrest⟩
    · rw [if_neg hs] at h
      by_cases h2 : (rootLinesL (splitLinesCh (stripWs sec))).length = 2
      · rw [if_pos h2] at h
        rcases List.mem_cons.mp h with heq | hmem
        · refine ⟨sec, List.mem_cons_self _ _, hs, ?_, congrArg Prod.snd heq⟩
          intro hnil
          rw [hnil] at h2
          cases h2
        · obtain ⟨s, hmem', hrest⟩ := ih (k + 1) hmem
          exact ⟨s, List.mem_cons_of_mem _ hmem', hrest⟩
      · rw [if_neg h2] at h
        by_cases h3 : (rootLinesL (splitLinesCh (stripWs sec))).length > 0
        · rw [if_pos h3] at h
          rcases List.mem_cons.mp h with heq | hmem
          · refine ⟨sec, List.mem_cons_self _ _, hs, ?_, congrArg Prod.snd heq⟩
            intro hnil
            rw [hnil] at h3
            cases h3
          · obtain ⟨s, hmem', hrest⟩ := ih (k + 1) hmem
            exact ⟨s, List.mem_cons_of_mem _ hmem', hrest⟩
        · rw [if_neg h3] at h
          obtain ⟨s, hmem, hrest⟩ := ih k h
          exact ⟨s, List.mem_cons_of_mem _ hmem, hrest⟩

theorem meduRootUnit_nonempty {content : List Char} {n : Nat} {v : List Char}
    (h : (n, v) ∈ Medu.extract_root_verses content) : v ≠ [] := by
  obtain ⟨sec, _, _, hrl, hv⟩ := mem_rootGo (splitTriple content) 1 h
  obtain ⟨e, he⟩ := List.exists_mem_of_ne_nil _ hrl
  have hse : stripWs e ≠ [] := mem_rootLinesL he
  intro hvnil
  rw [hvnil] at hv
  have hall := stripWs_eq_nil_iff.mp hv.symm
  exact hse (stripWs_eq_nil_iff.mpr
    (joinNl_all_space (rootLinesL (splitLinesCh (stripWs sec))) hall e he))

/-- Counterexample to claim C7 as stated: the line-prefix commentary
extractor persists a unit with empty content, without any warning, on a
fragment whose unclassified non-empty lines are whitespace only. -/
theorem C7_counterexample :
    Medu.extract_commentary ("> a\n \n> b".data) = [(1, [])] := by
  rfl

/-- Claim C7, amended: under the section-header extractors (any key shape
and cleaning pass, so covering the dotted, integer, and root-line-cleaned
scripts), the dotted verse-end extractor, the labeled verse-end
extractor, and the line-prefix root extractor, no persisted unit has
empty content: a section whose content trims to nothing is skipped and
never written. The line-prefix commentary extractor is excluded: it can
persist an empty unit when a fragment's unclassified non-empty lines are
all whitespace. -/
theorem C7_no_empty_units :
    (∀ (isKey : List Char → Bool) (clean : List Char → List Char) content k c,
      (k, c) ∈ sectionUnits isKey clean content → stripWs c ≠ [] ∧ c ≠ []) ∧
    (∀ content n v, (n, v) ∈ BcaRoot.extract_verse_sections content → v ≠ []) ∧
    (∀ content n v, (n, v) ∈ Seni.extract_root_verses content → v ≠ []) ∧
    (∀ content n v, (n, v) ∈ Medu.extract_root_verses content → v ≠ []) := by
  refine ⟨fun isKey clean content k c h => sectionUnits_nonempty h, ?_, ?_,
    fun content n v h => meduRootUnit_nonempty h⟩
  · intro content n v h
    obtain ⟨raw, _, _, rfl⟩ := bcaUnit_shape h
    intro hnil
    simp at hnil
  · intro content n v h
    obtain ⟨t, rfl⟩ := seniUnit_marker_suffix h
    intro hnil
    simp at hnil

/-- Witness for C7 at one concrete document per extractor. -/
theorem C7_no_empty_units_witness :
    (stripWs ("Alpha".data) ≠ [] ∧ ("Alpha".data : List Char) ≠ []) ∧
    ("a || 1.1 ||".data : List Char) ≠ [] ∧
    ("y || SeNi 1 ||".data : List Char) ≠ [] ∧
    ("line1\nline2".data : List Char) ≠ [] := by
  refine ⟨?_, ?_, ?_, ?_⟩
  · exact C7_no_empty_units.1 isDottedKey id ("--- 1.1\nAlpha\n".data)
      ("1.1".data) ("Alpha".data) (by decide)
  · exact C7_no_empty_units.2.1 ("a || 1.1 ||".data) ("1.1".data)
      ("a || 1.1 ||".data) (by decide)
  · exact C7_no_empty_units.2.2.1 ("> y || SeNi 1 ||".data) ("1".data)
      ("y || SeNi 1 ||".data) (by decide)
  · exact C7_no_empty_units.2.2.2 (">line1\n>line2".data) 1
      ("line1\nline2".data) (by decide)

/-! ## Line-prefix dialect keys (C5) -/

theorem rootGo_enum :
    ∀ (secs : List (List Char)) (k : Nat),
      (∀ s ∈ secs, stripWs s ≠ [] → rootLinesL (splitLinesCh (stripWs s)) ≠ []) →
      Medu.rootGo k secs =
        (enumFrom k (secs.filterMap fun s =>
          if stripWs s = [] then none else some (stripWs s))).map
          fun p => (p.1, stripWs (joinNl (rootLinesL (splitLinesCh p.2)))) := by
  intro secs
  induction secs with
  | nil => intro k _; rfl
  | cons sec rest ih =>
    intro k hyp
    rw [Medu.rootGo]
    by_cases hs : stripWs sec = []
    · rw [if_pos hs]
      rw [show (sec :: rest).filterMap (fun s =>
            if stripWs s = [] then none else some (stripWs s)) =
          rest.filterMap (fun s =>
            if stripWs s = [] then none else some (stripWs s)) from by
        simp [List.filterMap_cons, hs]]
      exact ih k fun s hmem => hyp s (List.mem_cons_of_mem _ hmem)
    · rw [if_neg hs]
      have hrl := hyp sec (List.mem_cons_self _ _) hs
      rw [show (sec :: rest).filterMap (fun s =>
            if stripWs s = [] then none else some (stripWs s)) =
          stripWs sec :: rest.filterMap (fun s =>
            if stripWs s = [] then none else some (stripWs s)) from by
        simp [List.filterMap_cons, hs]]
      rw [show enumFrom k (stripWs sec :: rest.filterMap (fun s =>
            if stripWs s = [] then none else some (stripWs s))) =
          (k, stripWs sec) :: enumFrom (k + 1) (rest.filterMap (fun s =>
            if stripWs s = [] then none else some (stripWs s))) from rfl]
      rw [List.map_cons]
      have hih := ih (k + 1) fun s hmem => hyp s (List.mem_cons_of_mem _ hmem)
      by_cases h2 : (rootLinesL (splitLinesCh (stripWs sec))).length = 2
      · rw [if_pos h2, hih]
      · rw [if_neg h2]
        have h3 : (rootLinesL (splitLinesCh (stripWs sec))).length > 0 :=
          List.length_pos.mpr hrl
        rw [if_pos h3, hih]

theorem commGo_enum :
    ∀ (secs : List (List Char)) (k : Nat),
      Medu.commGo k secs =
        (enumFrom k (secs.filterMap fun s =>
          if stripWs s = [] then none else some (stripWs s))).filterMap
          fun p => if (commLinesL (splitLinesCh p.2)).isEmpty then none
            else some (p.1, stripWs (joinNl (commLinesL (splitLinesCh p.2)))) := by
  intro secs
  induction secs with
  | nil => intro k; rfl
  | cons sec rest ih =>
    intro k
    rw [Medu.commGo]
    by_cases hs : stripWs sec = []
    · rw [if_pos hs]
      rw [show (sec :: rest).filterMap (fun s =>
            if stripWs s = [] then none else some (stripWs s)) =
          rest.filterMap (fun s =>
            if stripWs s = [] then none else some (stripWs s)) from by
        simp [List.filterMap_cons, hs]]
      exact ih k
    · rw [if_neg hs]
      rw [show (sec :: rest).filterMap (fun s =>
            if stripWs s = [] then none else some (stripWs s)) =
          stripWs sec :: rest.filterMap (fun s =>
            if stripWs s = [] then none else some (stripWs s)) from by
        simp [List.filterMap_cons, hs]]
      rw [show enumFrom k (stripWs sec :: rest.filterMap (fun s =>
            if stripWs s = [] then none else some (stripWs s))) =
          (k, stripWs sec) :: enumFrom (k + 1) (rest.filterMap (fun s =>
            if stripWs s = [] then none else some (stripWs s))) from rfl]
      rw [List.filterMap_cons]
      by_cases hcl : (commLinesL (splitLinesCh (stripWs sec))).isEmpty = true
      · simp only [hcl, if_pos]
        exact ih (k + 1)
      · simp only [hcl, Bool.false_eq_true, if_false]
        exact congrArg (List.cons _) (ih (k + 1))

/-- Counterexample to claim C5 as stated: in the document with fragments
"x" and "> a / > b / note", the second fragment's root sub-fragment is
persisted with key 1 while its commentary sub-fragment is persisted with
key 2 - the two sub-fragments of the same enclosing fragment do not share
the fragment's ordinal, because the first (root-less) fragment advanced
only the commentary counter. -/
theorem C5_counterexample :
    Medu.extract_root_verses ("x\n---\n> a\n> b\nnote".data) =
      [(1, "a\n b".data)] ∧
    Medu.extract_commentary ("x\n---\n> a\n> b\nnote".data) =
      [(1, "x".data), (2, "note".data)] := by
  constructor
  · rfl
  · rfl

/-- Claim C5, amended: provided every non-blank fragment of the document
contains at least one classified line, the line-prefix extractors assign
the root sub-fragment and the commentary sub-fragment of each enclosing
fragment the same key: the fragment's 1-based ordinal among non-blank
fragments. (Without the proviso the root extractor advances its counter
only on fragments yielding root lines while the commentary extractor
counts every non-blank fragment, and the keys diverge.) -/
theorem C5_shared_ordinal_key (content : List Char)
    (hyp : ∀ s ∈ splitTriple content, stripWs s ≠ [] →
      rootLinesL (splitLinesCh (stripWs s)) ≠ []) :
    Medu.extract_root_verses content =
      (enumFrom 1 (nonBlankSecs content)).map
        (fun p => (p.1, stripWs (joinNl (rootLinesL (splitLinesCh p.2))))) ∧
    Medu.extract_commentary content =
      (enumFrom 1 (nonBlankSecs content)).filterMap
        (fun p => if (commLinesL (splitLinesCh p.2)).isEmpty then none
          else some (p.1, stripWs (joinNl (commLinesL (splitLinesCh p.2))))) :=
  ⟨rootGo_enum (splitTriple content) 1 hyp, commGo_enum (splitTriple content) 1⟩

/-- Witness for C5 on a two-fragment document in which every non-blank
fragment carries classified lines. -/
theorem C5_shared_ordinal_key_witness :
    Medu.extract_root_verses ("> a\n> b\nnote\n---\n> c\nmore".data) =
      (enumFrom 1 (nonBlankSecs ("> a\n> b\nnote\n---\n> c\nmore".data))).map
        (fun p => (p.1, stripWs (joinNl (rootLinesL (splitLinesCh p.2))))) ∧
    Medu.extract_commentary ("> a\n> b\nnote\n---\n> c\nmore".data) =
      (enumFrom 1 (nonBlankSecs ("> a\n> b\nnote\n---\n> c\nmore".data))).filterMap
        (fun p => if (commLinesL (splitLinesCh p.2)).isEmpty then none
          else some (p.1, stripWs (joinNl (commLinesL (splitLinesCh p.2))))) :=
  C5_shared_ordinal_key ("> a\n> b\nnote\n---\n> c\nmore".data) (by decide)

/-- Claim C6: for any line-prefix fragment whose classified lines (root
prefix stripped) are exactly line1, line2 and whose unclassified lines
are exactly note - in whatever order and interleaving they occur in the
fragment - the assembled root unit content is exactly line1 newline
line2 and the assembled commentary unit content is exactly note; no line
of a commentary sub-fragment ever starts with the classification
character, and on the interleaved document the extractors emit exactly
those two units. -/
theorem C6_interleaved_assembly :
    (∀ sec : List Char,
      rootLinesL (splitLinesCh sec) = [ "line1".data, "line2".data ] →
      commLinesL (splitLinesCh sec) = [ "note".data ] →
      stripWs (joinNl (rootLinesL (splitLinesCh sec))) = "line1\nline2".data ∧
      stripWs (joinNl (commLinesL (splitLinesCh sec))) = "note".data) ∧
    (∀ (ls : List (List Char)) (l : List Char), l ∈ commLinesL ls →
      startsWithL ['>'] l = false) ∧
    Medu.extract_root_verses (">line1\nnote\n>line2".data) =
      [(1, "line1\nline2".data)] ∧
    Medu.extract_commentary (">line1\nnote\n>line2".data) =
      [(1, "note".data)] := by
  refine ⟨?_, ?_, rfl, rfl⟩
  · intro sec h1 h2
    rw [h1, h2]
    exact ⟨by decide, by decide⟩
  · intro ls l h
    have hp := (List.mem_filter.mp h).2
    simp only [Bool.and_eq_true, Bool.not_eq_true'] at hp
    exact hp.2

/-- Witness for C6 on the interleaved fragment. -/
theorem C6_interleaved_assembly_witness :
    (stripWs (joinNl (rootLinesL (splitLinesCh (">line1\nnote\n>line2".data)))) =
        "line1\nline2".data ∧
      stripWs (joinNl (commLinesL (splitLinesCh (">line1\nnote\n>line2".data)))) =
        "note".data) ∧
    startsWithL ['>'] ("note".data) = false := by
  constructor
  · exact C6_interleaved_assembly.1 (">line1\nnote\n>line2".data)
      (by decide) (by decide)
  · exact C6_interleaved_assembly.2.1 (splitLinesCh (">line1\nnote\n>line2".data))
      ("note".data) (by decide)

/-! ## Content fidelity (C8) -/

theorem edgeTrimB_sound {c : List Char} :
    ∀ (s : List Char), edgeTrimB c s = true → edgeTrimOf c s := by
  intro s
  induction s with
  | nil =>
    intro h
    unfold edgeTrimB at h
    simp only [Bool.or_eq_true, Bool.and_eq_true] at h
    rcases h with ⟨hsw, _⟩ | h
    · obtain ⟨t, ht⟩ := startsWithL_iff.mp hsw
      rcases List.append_eq_nil.mp ht.symm with ⟨rfl, rfl⟩
      exact ⟨[], [], rfl, rfl, rfl⟩
    · cases h
  | cons x rest ih =>
    intro h
    unfold edgeTrimB at h
    simp only [Bool.or_eq_true, Bool.and_eq_true] at h
    rcases h with ⟨hsw, hall⟩ | ⟨hx, hb⟩
    · obtain ⟨t, ht⟩ := startsWithL_iff.mp hsw
      refine ⟨[], t, by simpa using ht, rfl, ?_⟩
      rw [ht, List.drop_left] at hall
      exact hall
    · obtain ⟨pre, post, hdec, hpre, hpost⟩ := ih hb
      exact ⟨x :: pre, post, by simp [hdec],
        by simp [List.all_cons, hx, hpre], hpost⟩

theorem edgeTrim_append (c post : List Char) (hpost : post.all pyIsSpace = true) :
    ∀ pre, pre.all pyIsSpace = true → edgeTrimB c (pre ++ c ++ post) = true := by
  intro pre
  induction pre with
  | nil =>
    intro _
    have hs : ([] ++ c ++ post : List Char) = c ++ post := by simp
    rw [hs]
    unfold edgeTrimB
    rw [Bool.or_eq_true, Bool.and_eq_true]
    refine Or.inl ⟨?_, ?_⟩
    · exact startsWithL_iff.mpr ⟨post, rfl⟩
    · rw [List.drop_left]
      exact hpost
  | cons x pre' ih =>
    intro hpre
    simp only [List.all_cons, Bool.and_eq_true] at hpre
    have hs : ((x :: pre') ++ c ++ post : List Char) =
        x :: (pre' ++ c ++ post) := by simp
    rw [hs]
    unfold edgeTrimB
    rw [Bool.or_eq_true]
    refine Or.inr ?_
    show (pyIsSpace x && edgeTrimB c (pre' ++ c ++ post)) = true
    rw [Bool.and_eq_true]
    exact ⟨hpre.1, ih hpre.2⟩

theorem edgeTrimB_iff {c s : List Char} : edgeTrimB c s = true ↔ edgeTrimOf c s := by
  constructor
  · exact edgeTrimB_sound s
  · intro h
    obtain ⟨pre, post, rfl, h1, h2⟩ := h
    exact edgeTrim_append c post h2 pre h1

theorem lstripNl_decomp (m : List Char) :
    m = m.takeWhile (fun c => c == '\n') ++ lstripNl m ∧
      (m.takeWhile (fun c => c == '\n')).all (fun c => c == '\n') = true := by
  refine ⟨(List.takeWhile_append_dropWhile _ m).symm, ?_⟩
  exact List.all_eq_true.mpr fun x hx =>
    List.mem_takeWhile_imp (p := fun c => c == '\n') hx

theorem mem_commGo {n : Nat} {v : List Char} :
    ∀ (secs : List (List Char)) (k : Nat), (n, v) ∈ Medu.commGo k secs →
      ∃ sec, sec ∈ secs ∧ stripWs sec ≠ [] ∧
        v = stripWs (joinNl (commLinesL (splitLinesCh (stripWs sec)))) := by
  intro secs
  induction secs with
  | nil => intro k h; cases h
  | cons sec rest ih =>
    intro k h
    rw [Medu.commGo] at h
    by_cases hs : stripWs sec = []
    · rw [if_pos hs] at h
      obtain ⟨s, hmem, hrest⟩ := ih k h
      exact ⟨s, List.mem_cons_of_mem _ hmem, hrest⟩
    · rw [if_neg hs] at h
      by_cases hcl : (commLinesL (splitLinesCh (stripWs sec))).isEmpty = true
      · rw [if_pos hcl] at h
        obtain ⟨s, hmem, hrest⟩ := ih (k + 1) h
        exact ⟨s, List.mem_cons_of_mem _ hmem, hrest⟩
      · rw [if_neg hcl] at h
        rcases List.mem_cons.mp h with heq | hmem
        · exact ⟨sec, List.mem_cons_self _ _, hs, congrArg Prod.snd heq⟩
        · obtain ⟨s, hmem', hrest⟩ := ih (k + 1) hmem
          exact ⟨s, List.mem_cons_of_mem _ hmem', hrest⟩

/-- Counterexample to claim C8 as stated: the labeled verse-end root
extractor strips every line individually, so interior indentation is not
preserved. From a document whose first root line carries three spaces of
indentation after the marker character, the persisted unit drops that
indentation (and the leading space of the second line): the unit content
is not obtainable from the corresponding prefix-stripped source text by
trimming whitespace at the two edges only. -/
theorem C8_counterexample :
    Seni.extract_root_verses (">   x\n> y || SeNi 1 ||".data) =
      [(("1".data), ("x\ny || SeNi 1 ||".data))] ∧
    ¬ edgeTrimOf ("x\ny || SeNi 1 ||".data) ("   x\n y || SeNi 1 ||".data) := by
  constructor
  · rfl
  · intro h
    rw [← edgeTrimB_iff] at h
    exact absurd h (by decide)

/-- Claim C8, amended: except for the labeled (SeNi) verse-end root
extractor - which strips each accumulated line individually and so does
not preserve interior indentation - every persisted unit's content is its
corresponding source text with whitespace removed only at the two edges,
interior line breaks and indentation kept verbatim: a section-header unit
is its (cleaned) fragment body minus leading newlines and trailing
whitespace; a dotted verse-end unit is the whitespace-trimmed verse body
with the marker re-appended (one space on each side of the double bars);
a line-prefix unit is the whitespace-trimmed newline-join of its
fragment's classified (prefix-stripped) resp. unclassified lines. -/
theorem C8_content_fidelity :
    (∀ (isKey : List Char → Bool) (clean : List Char → List Char) content k c,
      (k, c) ∈ sectionUnits isKey clean content →
      ∃ b pre post, (k, b) ∈ sectionPairs isKey content ∧
        clean b = pre ++ c ++ post ∧
        pre.all (fun x => x == '\n') = true ∧ post.all pyIsSpace = true) ∧
    (∀ content n v, (n, v) ∈ BcaRoot.extract_verse_sections content →
      ∃ raw core, (raw, n) ∈ scanVerses content ∧
        v = core ++ ((" || ".data) ++ n ++ (" ||".data)) ∧ edgeTrimOf core raw) ∧
    (∀ content n v, (n, v) ∈ Medu.extract_root_verses content →
      ∃ sec, sec ∈ splitTriple content ∧
        edgeTrimOf v (joinNl (rootLinesL (splitLinesCh (stripWs sec))))) ∧
    (∀ content n v, (n, v) ∈ Medu.extract_commentary content →
      ∃ sec, sec ∈ splitTriple content ∧
        edgeTrimOf v (joinNl (commLinesL (splitLinesCh (stripWs sec))))) := by
  refine ⟨?_, ?_, ?_, ?_⟩
  · intro isKey clean content k c h
    rcases List.mem_filterMap.mp h with ⟨p, hmem, hf⟩
    split at hf
    · cases hf
    · cases hf
      obtain ⟨t, ht, hallt⟩ := rstripWs_decomp (lstripNl (clean p.2))
      obtain ⟨hm, hallm⟩ := lstripNl_decomp (clean p.2)
      refine ⟨p.2, (clean p.2).takeWhile (fun x => x == '\n'), t, hmem, ?_,
        hallm, hallt⟩
      conv_lhs => rw [hm, ht]
      simp [List.append_assoc]
  · intro content n v h
    obtain ⟨raw, hmem, _, hv⟩ := bcaUnit_shape h
    rw [lstripNl_stripWs] at hv
    obtain ⟨pre, post, hdec, hpre, hpost⟩ := stripWs_decomp raw
    exact ⟨raw, stripWs raw, hmem, hv, pre, post, hdec, hpre, hpost⟩
  · intro content n v h
    obtain ⟨sec, hmem, _, _, hv⟩ := mem_rootGo (splitTriple content) 1 h
    obtain ⟨pre, post, hdec, hpre, hpost⟩ :=
      stripWs_decomp (joinNl (rootLinesL (splitLinesCh (stripWs sec))))
    rw [← hv] at hdec
    exact ⟨sec, hmem, pre, post, hdec, hpre, hpost⟩
  · intro content n v h
    obtain ⟨sec, hmem, _, hv⟩ := mem_commGo (splitTriple content) 1 h
    obtain ⟨pre, post, hdec, hpre, hpost⟩ :=
      stripWs_decomp (joinNl (commLinesL (splitLinesCh (stripWs sec))))
    rw [← hv] at hdec
    exact ⟨sec, hmem, pre, post, hdec, hpre, hpost⟩

/-- Witness for C8 at one concrete document per extractor. -/
theorem C8_content_fidelity_witness :
    (∃ b pre post, (("1.1".data : List Char), b) ∈ sectionPairs isDottedKey
        ("--- 1.1\n\nAlpha  \n".data) ∧
      id b = pre ++ ("Alpha".data) ++ post ∧
      pre.all (fun x => x == '\n') = true ∧ post.all pyIsSpace = true) ∧
    (∃ raw core, (raw, ("1.1".data : List Char)) ∈ scanVerses (" a  || 1.1 ||".data) ∧
      ("a || 1.1 ||".data : List Char) =
        core ++ ((" || ".data) ++ ("1.1".data) ++ (" ||".data)) ∧
      edgeTrimOf core raw) ∧
    (∃ sec, sec ∈ splitTriple (">  in\n> dent".data) ∧
      edgeTrimOf ("in\n dent".data)
        (joinNl (rootLinesL (splitLinesCh (stripWs sec))))) ∧
    (∃ sec, sec ∈ splitTriple (" note ".data) ∧
      edgeTrimOf ("note".data)
        (joinNl (commLinesL (splitLinesCh (stripWs sec))))) := by
  refine ⟨?_, ?_, ?_, ?_⟩
  · exact C8_content_fidelity.1 isDottedKey id ("--- 1.1\n\nAlpha  \n".data)
      ("1.1".data) ("Alpha".data) (by decide)
  · exact C8_content_fidelity.2.1 (" a  || 1.1 ||".data) ("1.1".data)
      ("a || 1.1 ||".data) (by decide)
  · exact C8_content_fidelity.2.2.1 (">  in\n> dent".data) 1
      ("in\n dent".data) (by decide)
  · exact C8_content_fidelity.2.2.2 (" note ".data) 1 ("note".data) (by decide)
